import Mathlib

/-!
Verification development for the chunked, content-addressed block storage
engine of `codeberg.org/gruf/go-store` (vendored in this repository at
`vendor/codeberg.org/gruf/go-store/storage/block.go`).

The Go source is shallowly embedded: the on-disk state of one `BlockStorage`
is a `Store` record (node files as an association list from key to the
ordered hash list they contain, block files as an association list from hash
to the stored chunk bytes), and each public operation (`WriteStream`,
`ReadStream`, `Stat`, `Remove`, `Clean`) becomes a pure Lean function on
`Store` returning an `Except Err` result, the successor state, and (for the
write and read paths) the ordered list of filesystem accesses performed.

Byte sequences are `List Nat`; block hashes are `String`s.  The SHA256 +
base64 hash encoder is kept abstract as a parameter `H : List Nat → String`
(its implementation lives in the non-vendored `go-hashenc` package); the
concrete injective encoder `Hc` is used for closed evaluations.
-/

namespace BlockStore

/-- Error taxonomy of the storage engine: the `Err*` values exported by the
`storage` package plus the aggregated corruption error built by `Clean`
(`fmt.Errorf("store/storage: corrupted nodes: %v", nodeKeys)`). -/
inductive Err where
  | invalidKey
  | alreadyExists
  | notFound
  | closed
  | corruptNode
  | noDataWritten
  | invalidNode
  | corruptedNodes (keys : List String)
  deriving DecidableEq, Repr

/-- A single filesystem access, used to record the order in which the write
and read paths touch the disk. -/
inductive FsOp where
  | statPath (p : String)
  | mkdirAll (p : String)
  | statBlockFile (h : String)
  | createBlockFile (h : String)
  | openNodeFile (k : String)
  | writeNodeData (k : String)
  deriving DecidableEq, Repr

/-- On-disk state of one opened `BlockStorage` instance.

`nodes` is the `node/` directory: one entry per node file, mapping the key
to the ordered hash list the file contains (the node codec is modelled
separately; see `NodeReader`).  `blocks` is the `block/` directory: one
entry per block file, mapping its name (a hash) to the stored chunk bytes.
`cwd` is the set of file names visible in the process working directory: it
exists because `WriteStream`'s pre-check calls `stat(key)` on the raw key
instead of the node path, so it consults the working directory, not the
store.  `isOpen` is the lockfile open/closed flag. -/
structure Store where
  nodes : List (String × List String)
  blocks : List (String × List Nat)
  cwd : List String
  isOpen : Bool
  overwrite : Bool
  blockSize : Nat
  deriving DecidableEq, Repr

/-- Association-list lookup, first match wins (files in a directory have
unique names, so at most one entry per key in well-formed states). -/
def lookupAL {β : Type} : List (String × β) → String → Option β
  | [], _ => none
  | (k, v) :: rest, key => if k = key then some v else lookupAL rest key

/-- Association-list update: replace the entry for `key`, or append it. -/
def setAL {β : Type} : List (String × β) → String → β → List (String × β)
  | [], key, v => [(key, v)]
  | (k, v') :: rest, key, v =>
    if k = key then (key, v) :: rest else (k, v') :: setAL rest key v

/-- Association-list removal of every entry for `key`. -/
def removeAL {β : Type} : List (String × β) → String → List (String × β)
  | [], _ => []
  | (k, v) :: rest, key =>
    if k = key then removeAL rest key else (k, v) :: removeAL rest key

/-- Key validation of `BlockStorage.nodePathForKey`: the Go code rejects the
key when `strings.Contains(key, "/") || key == "." || key == ".."`; a key is
valid exactly when that test fails. -/
def validKey (key : String) : Bool :=
  !(key.toList.contains '/' || key == "." || key == "..")

/-- Chunking of `WriteStream`'s input: `io.ReadFull` repeatedly fills a
`BlockSize`-byte buffer; a full read with no data left ends the loop on
`io.EOF` without producing a chunk, so an input whose size is an exact
multiple of `BlockSize` yields only full chunks and an empty input yields
none. -/
def chunksF (B : Nat) : Nat → List Nat → List (List Nat)
  | _, [] => []
  | 0, v => [v]
  | fuel + 1, b :: rest => (b :: rest.take (B - 1)) :: chunksF B fuel (rest.drop (B - 1))

/-- Entry point for chunking: the fuel is the input length, and every loop
iteration consumes at least one byte, so the fuel never runs out. -/
def chunks (B : Nat) (v : List Nat) : List (List Nat) := chunksF B v.length v

theorem chunks_ne_nil (B : Nat) (v : List Nat) (h : v ≠ []) : chunks B v ≠ [] := by
  cases v with
  | nil => exact absurd rfl h
  | cons b rest => simp [chunks, chunksF]

theorem chunks_nil (B : Nat) : chunks B [] = [] := rfl

example : chunks 4 [1, 2, 3, 4, 5] = [[1, 2, 3, 4], [5]] := by decide
example : chunks 4 [1, 2, 3, 4] = [[1, 2, 3, 4]] := by decide
example : validKey "a/b" = false := by decide
example : validKey "." = false := by decide
example : validKey "k" = true := by decide

/-- Per-chunk work of the `WriteStream` loop, sequentialised.  For each chunk
the loop calls `hc.EncodeSum(buf.B)` — note: on the whole pooled buffer
`buf.B` whose length is `BlockSize` (`buf.Grow(st.config.BlockSize)`), not
on the `n` bytes actually read — appends the resulting hash to the node's
hash list, and if `statBlock` reports the hash absent, writes `buf.B[:n]`
(only the chunk's own bytes) to a new block file.  `residue` models the
stale tail of the reusable pooled buffer beyond the bytes read (the buffer
pool recycles buffers without clearing them; spec §2 "reusable byte
buffers, sized to the configured chunk size"): a full chunk takes none of
it, the final short chunk is padded with `B - len(chunk)` residue bytes
before hashing.  Returns the appended hashes, the updated block directory,
and the filesystem accesses. -/
def storeChunks (H : List Nat → String) (B : Nat) (residue : List Nat) :
    List (String × List Nat) → List (List Nat) →
    List String × List (String × List Nat) × List FsOp
  | blocks, [] => ([], blocks, [])
  | blocks, c :: rest =>
    let sum := H (c ++ residue.take (B - c.length))
    let seen := (lookupAL blocks sum).isSome
    let blocks' := if seen then blocks else blocks ++ [(sum, c)]
    let tr := if seen then [FsOp.statBlockFile sum]
              else [FsOp.statBlockFile sum, FsOp.createBlockFile sum]
    let r := storeChunks H B residue blocks' rest
    (sum :: r.1, r.2.1, tr ++ r.2.2)

/-- Embedding of `BlockStorage.WriteStream`.  The guard order follows the source: key
validation (`nodePathForKey`), the open/closed check, the existence
pre-check — which calls `stat(key)` on the raw key, so it consults the
working directory `cwd` rather than the node path — then the chunk loop,
the `errNoHashesWritten` check, and finally the node file creation, which
with overwrite disabled uses `O_EXCL` and surfaces an existing node file as
`ErrAlreadyExists` (`errSwapExist`). -/
def writeStream (H : List Nat → String) (st : Store) (key : String)
    (v residue : List Nat) : Except Err Unit × Store × List FsOp :=
  if validKey key = false then (.error .invalidKey, st, [])
  else if st.isOpen = false then (.error .closed, st, [])
  else if st.cwd.contains key && !st.overwrite then
    (.error .alreadyExists, st, [.statPath key])
  else
    let pre : List FsOp := [.statPath key, .mkdirAll "node/", .mkdirAll "block/"]
    let r := storeChunks H st.blockSize residue st.blocks (chunks st.blockSize v)
    if r.1 = [] then
      (.error .noDataWritten, { st with blocks := r.2.1 }, pre ++ r.2.2)
    else if !st.overwrite && (lookupAL st.nodes key).isSome then
      (.error .alreadyExists, { st with blocks := r.2.1 },
        pre ++ r.2.2 ++ [.openNodeFile key])
    else
      (.ok (), { st with blocks := r.2.1, nodes := setAL st.nodes key r.1 },
        pre ++ r.2.2 ++ [.openNodeFile key, .writeNodeData key])

/-- State of a `blockReader`: the hash list still to be read (the source
pops consumed hashes off `r.node.hashes`), the currently buffered block
data, and the consumed-prefix length `prev`. -/
structure BlockReader where
  hashes : List String
  buf : List Nat
  prev : Nat
  deriving DecidableEq, Repr

/-- One `blockReader.Read` call returns either more data to come, clean
end-of-stream (`io.EOF`), or an error. -/
inductive ReadRes where
  | more
  | eof
  | fail (e : Err)
  deriving DecidableEq, Repr

/-- The `for` loop of `blockReader.Read`: pop the next hash, fetch its block
file (`readBlock`; a missing or unreadable block file surfaces as
`errCorruptNode` with the buffer state untouched), buffer it, and copy as
much as fits into the remaining space of the caller's `bsize`-byte buffer.
Returns the bytes written so far, the successor reader state, and the call
result. -/
def brLoop (st : Store) (bsize : Nat) :
    List String → List Nat → List Nat → Nat → List Nat × BlockReader × ReadRes
  | [], acc, buf, prev => (acc, ⟨[], buf, prev⟩, .eof)
  | h :: rest, acc, buf, prev =>
    match lookupAL st.blocks h with
    | none => (acc, ⟨rest, buf, prev⟩, .fail .corruptNode)
    | some data =>
      let m := min (bsize - acc.length) data.length
      let acc' := acc ++ data.take m
      if bsize ≤ acc'.length then (acc', ⟨rest, data, m⟩, .more)
      else brLoop st bsize rest acc' data m

/-- Embedding of `blockReader.Read` with a `bsize`-byte destination buffer.  The entry
condition is the source's `r.prev < len(r.buf)-1` (rendered over `Nat` as
`r.prev + 1 < r.buf.length`): only when at least two bytes of the buffered
block remain unconsumed does the call resume copying from the buffer, so a
single remaining byte is skipped. -/
def blockReaderRead (st : Store) (r : BlockReader) (bsize : Nat) :
    List Nat × BlockReader × ReadRes :=
  if r.prev + 1 < r.buf.length then
    let copied := min bsize (r.buf.length - r.prev)
    let out := (r.buf.drop r.prev).take copied
    if bsize ≤ copied then (out, ⟨r.hashes, r.buf, r.prev + copied⟩, .more)
    else brLoop st bsize r.hashes out r.buf (r.prev + copied)
  else
    brLoop st bsize r.hashes [] r.buf r.prev

/-- Drive a `blockReader` through a sequence of pull sizes, concatenating
the bytes each `Read` call produces, stopping at end-of-stream or error. -/
def readPump (st : Store) : BlockReader → List Nat → List Nat × ReadRes
  | _, [] => ([], .more)
  | r, sz :: rest =>
    let step := blockReaderRead st r sz
    match step.2.2 with
    | .more =>
      let next := readPump st step.2.1 rest
      (step.1 ++ next.1, next.2)
    | other => (step.1, other)

/-- Embedding of `BlockStorage.ReadStream`: key validation, the open/closed check, then
the node file open — absence surfaces as `ErrNotFound` (`errSwapNotFound`)
— and node parsing; on success the caller gets a `blockReader` positioned
at the node's hash list with an empty buffer. -/
def readStream (st : Store) (key : String) : Except Err BlockReader × List FsOp :=
  if validKey key = false then (.error .invalidKey, [])
  else if st.isOpen = false then (.error .closed, [])
  else
    match lookupAL st.nodes key with
    | none => (.error .notFound, [.openNodeFile key])
    | some hs => (.ok ⟨hs, [], 0⟩, [.openNodeFile key])

/-- Open a read stream for `key` and pull it with the given sizes. -/
def readKey (st : Store) (key : String) (pulls : List Nat) :
    Except Err (List Nat × ReadRes) :=
  match (readStream st key).1 with
  | .error e => .error e
  | .ok r => .ok (readPump st r pulls)

/-- Embedding of `BlockStorage.Stat`: key validation, the open/closed check, then
`stat(kpath)`.  Modelled from the spec for the missing `stat` helper (not
under `src/`): §6's façade contract is `Stat(key) -> bool`, so the helper
reports plain existence as a boolean and reserves the error value for
genuine faults; note `Stat`, unlike read and remove, applies no
`errSwapNotFound`. -/
def statOp (st : Store) (key : String) : Except Err Bool :=
  if validKey key = false then .error .invalidKey
  else if st.isOpen = false then .error .closed
  else .ok (lookupAL st.nodes key).isSome

/-- Embedding of `BlockStorage.Remove`: key validation, the open/closed check, then
`unlink(kpath)` with `errSwapNotFound`.  Modelled from the spec for the
missing `unlink` helper (not under `src/`): §7 "`NotFound` — node file
absent on ... delete". -/
def removeOp (st : Store) (key : String) : Except Err Unit × Store :=
  if validKey key = false then (.error .invalidKey, st)
  else if st.isOpen = false then (.error .closed, st)
  else
    match lookupAL st.nodes key with
    | none => (.error .notFound, st)
    | some _ => (.ok (), { st with nodes := removeAL st.nodes key })

/-- A concrete, injective stand-in for the SHA256+base64 hash encoder, used
to evaluate the model on closed inputs. -/
def Hc (l : List Nat) : String :=
  l.foldl (fun s b => s ++ toString b ++ ",") "h"

/-- The empty freshly-opened store used by the closed evaluations:
overwrite disabled, 4-byte blocks. -/
def st0 : Store := ⟨[], [], [], true, false, 4⟩

example : (writeStream Hc st0 "k" [97, 98] [0, 0]).1 = .ok () := rfl
example : (writeStream Hc st0 "k" [97, 98] [0, 0]).2.1.nodes
    = [("k", [Hc [97, 98, 0, 0]])] := by decide
example : (writeStream Hc st0 "k" [] []).1 = .error .noDataWritten := rfl

/-- Embedding of `node.removeHash`: the in-place loop drops every element equal to
`hash` (the index advances only past elements that are kept) and reports
whether at least one was dropped. -/
def removeHashLoop (hash : String) : List String → List String × Bool
  | [] => ([], false)
  | x :: rest =>
    let r := removeHashLoop hash rest
    if x = hash then (r.1, true) else (x :: r.1, r.2)

theorem removeHashLoop_eq (hash : String) (hs : List String) :
    removeHashLoop hash hs
      = (hs.filter (fun x => x ≠ hash), decide (hash ∈ hs)) := by
  induction hs with
  | nil => rfl
  | cons x rest ih =>
    simp only [removeHashLoop, ih, List.filter_cons, List.mem_cons]
    by_cases hx : x = hash
    · subst hx
      simp
    · have hx' : ¬hash = x := fun h => hx h.symm
      simp [hx, hx']

/-- Per-node step of `Clean`'s block walk: `node.removeHash(fsentry.Name())`
followed by `delete(nodes, key)` when the node contained the hash and its
hash list is now empty. -/
def cleanScanNode (bname : String) (kn : String × List String) :
    Option (String × List String) :=
  let r := removeHashLoop bname kn.2
  if r.2 then (if r.1 = [] then none else some (kn.1, r.1)) else some kn

/-- Phase 2 of `Clean`, the block-directory walk: for each block file, remove its name
from every node's hash list (dropping nodes that become empty), and keep
the block file exactly when some node referenced it; an unreferenced block
file is removed from disk.  Returns the surviving block directory and the
nodes still unaccounted for. -/
def cleanScanBlocks :
    List (String × List Nat) → List (String × List String) →
    List (String × List Nat) × List (String × List String)
  | [], nodes => ([], nodes)
  | b :: rest, nodes =>
    let inUse := nodes.any (fun kn => (removeHashLoop b.1 kn.2).2)
    let nodes' := nodes.filterMap (cleanScanNode b.1)
    let r := cleanScanBlocks rest nodes'
    (if inUse then b :: r.1 else r.1, r.2)

/-- Embedding of `BlockStorage.Clean`: the open/closed check, phase 1 (parse every node
file; modelled by `st.nodes` directly), phase 2 (`cleanScanBlocks`), and
phase 3: any node still tracked references a hash with no block file, and
all their keys are aggregated into one `corruptedNodes` error.  Node files
are never deleted. -/
def cleanOp (st : Store) : Except Err Unit × Store :=
  if st.isOpen = false then (.error .closed, st)
  else
    let r := cleanScanBlocks st.blocks st.nodes
    (if r.2 = [] then .ok ()
     else .error (.corruptedNodes (r.2.map Prod.fst)), { st with blocks := r.1 })

example :
    cleanOp ⟨[("good", ["h1"]), ("bad", ["h1", "hx"])],
             [("h1", [1]), ("orphan", [2])], [], true, false, 4⟩
      = (.error (.corruptedNodes ["bad"]),
         ⟨[("good", ["h1"]), ("bad", ["h1", "hx"])], [("h1", [1])], [], true, false, 4⟩) :=
  rfl

example :
    cleanOp ⟨[("k", ["h", "h"])], [("h", [5])], [], true, false, 4⟩
      = (.ok (), ⟨[("k", ["h", "h"])], [("h", [5])], [], true, false, 4⟩) :=
  rfl

/-- Fixed length of the printable block-hash encoding.  Modelled from the
spec for the missing `go-hashenc` package (not under `src/`): §6 "fixed-
length printable encoding of a 256-bit digest", i.e. unpadded base64 of the
32-byte SHA256 sum, 43 characters. -/
def encodedHashLen : Nat := 43

/-- State of a `nodeReader` (the node-file serializer): the node's hash
list, the index of the hash currently being emitted, and `last`, the
source's overloaded resume offset: `-1` means the separator after a
completed hash is still owed, otherwise it is the offset within the current
hash at which the next copy resumes. -/
structure NodeReader where
  hashes : List String
  idx : Nat
  last : Int
  deriving DecidableEq, Repr

/-- The `for r.idx < len(r.node.hashes)` loop of `nodeReader.Read`,
recursing over the hashes not yet fully emitted.  Two slips of the source
are preserved: after an incomplete copy the resume offset is set to the
copied count `m` instead of being advanced by it (`r.last = m`), and when
the buffer fills exactly at the end of a hash the index is not advanced
before returning (`r.last = -1` with no `r.idx++`), so the next call
re-emits that hash.  Returns the emitted characters, how many hashes were
completed, the new `last`, and whether `io.EOF` was reached. -/
def nrLoop (bsize : Nat) : List String → Nat → Int → List Char × Nat × Int × Bool
  | [], _, last => ([], 0, last, true)
  | h :: rest, n, last =>
    let hl := h.toList
    let lastN := last.toNat
    let m := min (bsize - n) (hl.length - lastN)
    let out := (hl.drop lastN).take m
    if m < hl.length - lastN then (out, 0, (m : Int), false)
    else if n + m = bsize then (out, 0, (-1 : Int), false)
    else
      let r := nrLoop bsize rest (n + m + 1) 0
      (out ++ '\n' :: r.1, r.2.1 + 1, r.2.2)

/-- One `nodeReader.Read` call into a `bsize`-byte buffer: if a separator
is owed (`last = -1`) it is written first, then the loop emits hash bytes.
(The source would fault writing the owed separator into an empty buffer;
the codec is only ever called with non-empty buffers.) -/
def nodeReaderRead (r : NodeReader) (bsize : Nat) : List Char × NodeReader × Bool :=
  if bsize = 0 then ([], r, false)
  else
    let pre : List Char × Nat × Int :=
      if r.last = -1 then (['\n'], 1, 0) else ([], 0, r.last)
    let l := nrLoop bsize (r.hashes.drop r.idx) pre.2.1 pre.2.2
    (pre.1 ++ l.1, ⟨r.hashes, r.idx + l.2.1, l.2.2.1⟩, l.2.2.2)

/-- Drive a `nodeReader` through a sequence of buffer sizes, concatenating
the emitted bytes, stopping at `io.EOF`. -/
def nrPump : NodeReader → List Nat → List Char
  | _, [] => []
  | r, sz :: rest =>
    let step := nodeReaderRead r sz
    if step.2.2 then step.1 else step.1 ++ nrPump step.2.1 rest

/-- The serialization the spec prescribes for a node file (§4.3): each hash
followed by the separator byte, nothing after the last separator. -/
def serializeNodeSpec (hashes : List String) : List Char :=
  hashes.foldr (fun h acc => h.toList ++ '\n' :: acc) []

example : nrPump ⟨["ab"], 0, 0⟩ [10] = ['a', 'b', '\n'] := by decide
example : serializeNodeSpec ["ab", "cd"] = ['a', 'b', '\n', 'c', 'd', '\n'] := by decide

/-- C9: a key containing a path separator or equal to `.` or `..` is
rejected by both the write and the read operation with `InvalidKey`, with
the store untouched and no filesystem access performed (empty access
trace). -/
theorem c9_invalid_key_rejected_before_disk (H : List Nat → String) (st : Store)
    (key : String) (v residue : List Nat)
    (h : key.toList.contains '/' = true ∨ key = "." ∨ key = "..") :
    writeStream H st key v residue = (.error .invalidKey, st, []) ∧
    readStream st key = (.error .invalidKey, []) := by
  have hv : validKey key = false := by
    rcases h with h | h | h
    · unfold validKey; rw [h]; rfl
    · subst h; rfl
    · subst h; rfl
  exact ⟨by simp [writeStream, hv], by simp [readStream, hv]⟩

theorem c9_witness :
    ("a/b".toList.contains '/' = true ∨ "a/b" = "." ∨ "a/b" = "..") ∧
    writeStream Hc st0 "a/b" [1] [] = (.error .invalidKey, st0, []) ∧
    readStream st0 "a/b" = (.error .invalidKey, []) :=
  ⟨Or.inl (by decide),
   (c9_invalid_key_rejected_before_disk Hc st0 "a/b" [1] [] (Or.inl (by decide))).1,
   (c9_invalid_key_rejected_before_disk Hc st0 "a/b" [1] [] (Or.inl (by decide))).2⟩

/-- Store with one key, used by the C6 evaluations. -/
def stC6 : Store := ⟨[("other", ["h"])], [("h", [1])], [], true, false, 4⟩

/-- C6 counterexample: for the valid absent key `"nope"`, `Stat` returns
`ok false` — `BlockStorage.Stat` passes the `stat` result through with no
`errSwapNotFound` — so stat does not fail with the NotFound error the
claim requires of all three operations. -/
theorem c6_counterexample :
    validKey "nope" = true ∧ lookupAL stC6.nodes "nope" = none ∧ stC6.isOpen = true ∧
    statOp stC6 "nope" = .ok false ∧ statOp stC6 "nope" ≠ .error .notFound :=
  ⟨rfl, rfl, rfl, rfl, fun h => Except.noConfusion h⟩

/-- C6 amended: for a valid key whose node file is absent, read and delete
fail with `NotFound`, while stat reports the absence by returning `false`
with no error. -/
theorem c6_amended_absent_key (st : Store) (key : String)
    (hk : validKey key = true) (ho : st.isOpen = true)
    (ha : lookupAL st.nodes key = none) :
    (readStream st key).1 = .error .notFound ∧
    (removeOp st key).1 = .error .notFound ∧
    statOp st key = .ok false := by
  refine ⟨?_, ?_, ?_⟩ <;> simp [readStream, removeOp, statOp, hk, ho, ha]

theorem c6_witness :
    (validKey "nope" = true ∧ stC6.isOpen = true ∧ lookupAL stC6.nodes "nope" = none) ∧
    (readStream stC6 "nope").1 = .error .notFound ∧
    (removeOp stC6 "nope").1 = .error .notFound ∧
    statOp stC6 "nope" = .ok false :=
  ⟨⟨rfl, rfl, rfl⟩, c6_amended_absent_key stC6 "nope" rfl rfl rfl⟩

/-- C7: a write whose input produces zero chunks (empty input) fails with
the no-data-written condition, leaves the store unchanged — in particular
no node file for the key — and the key stays unreadable (`NotFound`). -/
theorem c7_empty_write_no_data (H : List Nat → String) (st : Store)
    (key : String) (residue : List Nat)
    (hk : validKey key = true) (ho : st.isOpen = true)
    (hc : key ∉ st.cwd)
    (ha : lookupAL st.nodes key = none) :
    (writeStream H st key [] residue).1 = .error .noDataWritten ∧
    (writeStream H st key [] residue).2.1 = st ∧
    (readStream (writeStream H st key [] residue).2.1 key).1 = .error .notFound := by
  obtain ⟨ns, bs, cw, opn, ow, B⟩ := st
  have ho' : opn = true := ho
  subst ho'
  have hc' : key ∉ cw := hc
  have ha' : lookupAL ns key = none := ha
  have hw : writeStream H ⟨ns, bs, cw, true, ow, B⟩ key [] residue
      = (.error .noDataWritten, ⟨ns, bs, cw, true, ow, B⟩,
         [.statPath key, .mkdirAll "node/", .mkdirAll "block/"]) := by
    simp [writeStream, hk, hc', chunks, chunksF, storeChunks]
  refine ⟨by rw [hw], by rw [hw], ?_⟩
  rw [hw]
  simp [readStream, hk, ha']

theorem c7_witness :
    (validKey "k" = true ∧ st0.isOpen = true ∧ "k" ∉ st0.cwd ∧
      lookupAL st0.nodes "k" = none) ∧
    (writeStream Hc st0 "k" [] []).1 = .error .noDataWritten ∧
    (writeStream Hc st0 "k" [] []).2.1 = st0 ∧
    (readStream (writeStream Hc st0 "k" [] []).2.1 "k").1 = .error .notFound :=
  ⟨⟨rfl, rfl, by decide, rfl⟩,
   c7_empty_write_no_data Hc st0 "k" [] rfl rfl (by decide) rfl⟩

/-- Store after writing the two-byte value `[97, 98]` under `"k"`. -/
def st1c1 : Store := (writeStream Hc st0 "k" [97, 98] [0, 0]).2.1

/-- C1 fails on the code: after a successful write of the two-byte value
`[97, 98]`, reading it back with three one-byte pulls yields only `[97]`
and then end-of-stream — the `r.prev < len(r.buf)-1` entry condition of
`blockReader.Read` skips the single unconsumed byte left in the buffer by
the previous pull, so the round-trip does not hold across all pull-size
sequences. -/
theorem c1_read_drops_byte_before_refill :
    (writeStream Hc st0 "k" [97, 98] [0, 0]).1 = .ok () ∧
    readKey st1c1 "k" [1, 1, 1] = .ok ([97], .eof) ∧
    ([97] : List Nat) ≠ [97, 98] :=
  ⟨rfl, rfl, by decide⟩

/-- Stores after writing the same two-byte chunk `[1, 2]` under two keys
with different stale pool-buffer tails. -/
def stA2 : Store := (writeStream Hc st0 "k1" [1, 2] [9, 9]).2.1

def stB2 : Store := (writeStream Hc stA2 "k2" [1, 2] [7, 7]).2.1

/-- C2 fails on the code: `WriteStream` hashes the whole `BlockSize`-byte
pooled buffer (`hc.EncodeSum(buf.B)`) but stores only the `n` chunk bytes
(`buf.B[:n]`), so the hash appended for a short final chunk covers the
stale buffer tail, not exactly the chunk's bytes; two writes of the
identical chunk `[1, 2]` under different stale tails yield different
hashes and two block files with identical content. -/
theorem c2_hash_covers_stale_tail :
    (writeStream Hc st0 "k1" [1, 2] [9, 9]).2.1.nodes = [("k1", [Hc [1, 2, 9, 9]])] ∧
    Hc [1, 2, 9, 9] ≠ Hc [1, 2] ∧
    stB2.blocks = [(Hc [1, 2, 9, 9], [1, 2]), (Hc [1, 2, 7, 7], [1, 2])] ∧
    Hc [1, 2, 9, 9] ≠ Hc [1, 2, 7, 7] :=
  ⟨rfl, by decide, rfl, by decide⟩

/-- A 43-character hash of exactly the fixed encoded length. -/
def h43 : String := "abcdefghijklmnopqrstuvwxyzABCDEFGHIJKLMNOPQ"

/-- C5 fails on the code (serializer side): pulling a one-hash node reader
with buffer sizes 43 then 44 emits the hash, the separator, then the whole
hash again — after the first pull filled the buffer exactly at the end of
the hash, `nodeReader.Read` stored `r.last = -1` without advancing `r.idx`
— and with one-byte buffers the reader emits `a, b, b` because an
incomplete copy resets the resume offset to the copied count (`r.last = m`)
instead of advancing it; the correct stream is each hash once followed by
the separator. -/
theorem c5_serializer_reemits_hash :
    h43.length = encodedHashLen ∧
    nrPump ⟨[h43], 0, 0⟩ [43, 44] = h43.toList ++ '\n' :: h43.toList ∧
    serializeNodeSpec [h43] = h43.toList ++ ['\n'] ∧
    h43.toList ++ '\n' :: h43.toList ≠ h43.toList ++ ['\n'] ∧
    nrPump ⟨[h43], 0, 0⟩ [1, 1, 1] = ['a', 'b', 'b'] :=
  ⟨by decide, by decide, by decide, by decide, by decide⟩

/-- Names of the block files on disk (the block-directory listing). -/
def blockNames (blocks : List (String × List Nat)) : List String :=
  blocks.map Prod.fst

/-- A hash is referenced when some node's hash list contains it. -/
def referencedBy (nodes : List (String × List String)) (h : String) : Prop :=
  ∃ kn ∈ nodes, h ∈ kn.2

instance (nodes : List (String × List String)) (h : String) :
    Decidable (referencedBy nodes h) := by
  unfold referencedBy; infer_instance

/-- Cumulative effect on one node of scanning the block names `ns`: the
node's entry survives phase 2 with the `ns`-hashes removed, unless it was
non-empty and every hash it held was scanned (then it was dropped as fully
accounted for). -/
def surviveNode (ns : List String) (kn : String × List String) :
    Option (String × List String) :=
  if kn.2 = [] ∨ kn.2.filter (fun h => decide (h ∉ ns)) ≠ [] then
    some (kn.1, kn.2.filter (fun h => decide (h ∉ ns)))
  else none

theorem filter_congr_mem {α : Type} (p q : α → Bool) (l : List α)
    (h : ∀ a ∈ l, p a = q a) : l.filter p = l.filter q := by
  induction l with
  | nil => rfl
  | cons x rest ih =>
    rw [List.filter_cons, List.filter_cons, h x (by simp),
      ih (fun a ha => h a (by simp [ha]))]

theorem filterMap_congr_mem {α β : Type} (f g : α → Option β) (l : List α)
    (h : ∀ a ∈ l, f a = g a) : l.filterMap f = l.filterMap g := by
  induction l with
  | nil => rfl
  | cons x rest ih =>
    rw [List.filterMap_cons, List.filterMap_cons, h x (by simp),
      ih (fun a ha => h a (by simp [ha]))]

theorem filter_idem {α : Type} (p : α → Bool) (l : List α) :
    (l.filter p).filter p = l.filter p := by
  induction l with
  | nil => rfl
  | cons x rest ih => by_cases h : p x <;> simp [List.filter_cons, h, ih]

theorem blockNames_filter (blocks : List (String × List Nat)) (p : String → Bool) :
    blockNames (blocks.filter (fun b => p b.1)) = (blockNames blocks).filter p := by
  induction blocks with
  | nil => rfl
  | cons b rest ih =>
    by_cases h : p b.1 = true
    · rw [List.filter_cons, if_pos h,
        show blockNames (b :: rest.filter (fun x => p x.1))
          = b.1 :: blockNames (rest.filter (fun x => p x.1)) from rfl,
        show blockNames (b :: rest) = b.1 :: blockNames rest from rfl,
        List.filter_cons, if_pos h, ih]
    · rw [List.filter_cons, if_neg h,
        show blockNames (b :: rest) = b.1 :: blockNames rest from rfl,
        List.filter_cons, if_neg h, ih]

theorem nodup_keys_eq {β : Type} (l : List (String × β))
    (hnd : (l.map Prod.fst).Nodup) (k : String) (a b : β)
    (ha : (k, a) ∈ l) (hb : (k, b) ∈ l) : a = b := by
  induction l with
  | nil => cases ha
  | cons x rest ih =>
    rw [List.map_cons, List.nodup_cons] at hnd
    rcases List.mem_cons.1 ha with ha1 | ha1 <;>
      rcases List.mem_cons.1 hb with hb1 | hb1
    · exact congrArg Prod.snd (ha1.trans hb1.symm)
    · have hx := hnd.1
      rw [← ha1] at hx
      exact absurd (List.mem_map_of_mem Prod.fst hb1) hx
    · have hx := hnd.1
      rw [← hb1] at hx
      exact absurd (List.mem_map_of_mem Prod.fst ha1) hx
    · exact ih hnd.2 ha1 hb1

theorem inUse_eq (nodes : List (String × List String)) (b : String) :
    nodes.any (fun kn => (removeHashLoop b kn.2).2) = decide (referencedBy nodes b) := by
  by_cases h : referencedBy nodes b
  · rw [decide_eq_true h, List.any_eq_true]
    obtain ⟨kn, hmem, hin⟩ := h
    exact ⟨kn, hmem, by simp [removeHashLoop_eq, hin]⟩
  · rw [decide_eq_false h, List.any_eq_false]
    intro kn hmem
    simp only [removeHashLoop_eq, decide_eq_true_eq]
    intro hin
    exact h ⟨kn, hmem, hin⟩

theorem cleanScanNode_eq (b : String) (kn : String × List String) :
    cleanScanNode b kn =
      (if b ∈ kn.2 then
        (if kn.2.filter (fun x => decide (x ≠ b)) = [] then none
         else some (kn.1, kn.2.filter (fun x => decide (x ≠ b))))
       else some kn) := by
  unfold cleanScanNode
  by_cases hb : b ∈ kn.2 <;> simp [removeHashLoop_eq, hb]

theorem filter_filter_own {α : Type} (p q : α → Bool) (l : List α) :
    (l.filter p).filter q = l.filter (fun a => p a && q a) := by
  induction l with
  | nil => rfl
  | cons x rest ih =>
    by_cases hp : p x = true
    · by_cases hq : q x = true
      · rw [List.filter_cons, if_pos hp, List.filter_cons, if_pos hq,
          List.filter_cons, if_pos (by rw [hp, hq]; rfl), ih]
      · rw [List.filter_cons, if_pos hp, List.filter_cons, if_neg hq,
          List.filter_cons,
          if_neg (by rw [hp]; simpa using hq), ih]
    · rw [List.filter_cons, if_neg hp, List.filter_cons,
        if_neg (by rw [Bool.eq_false_iff.2 hp]; simp), ih]

theorem filter_ne_not_mem (hs : List String) (b : String) (ns : List String) :
    (hs.filter (fun x => decide (x ≠ b))).filter (fun h => decide (h ∉ ns))
      = hs.filter (fun h => decide (h ∉ b :: ns)) := by
  rw [filter_filter_own]
  have hfun : (fun a => decide (a ≠ b) && decide (a ∉ ns))
      = fun a : String => decide (a ∉ b :: ns) := by
    funext a
    by_cases hab : a = b
    · simp [hab]
    · by_cases han : a ∈ ns <;> simp [hab, han, List.mem_cons]
  rw [hfun]

theorem cleanScanNode_bind (b : String) (ns : List String)
    (kn : String × List String) :
    (cleanScanNode b kn).bind (surviveNode ns) = surviveNode (b :: ns) kn := by
  rw [cleanScanNode_eq]
  by_cases hb : b ∈ kn.2
  · rw [if_pos hb]
    have hne2 : kn.2 ≠ [] := List.ne_nil_of_mem hb
    by_cases hr : kn.2.filter (fun x => decide (x ≠ b)) = []
    · rw [if_pos hr]
      have hr' : kn.2.filter (fun h => decide (h ∉ b :: ns)) = [] := by
        rw [← filter_ne_not_mem, hr]
        rfl
      have hcond : ¬(kn.2 = [] ∨ kn.2.filter (fun h => decide (h ∉ b :: ns)) ≠ []) := by
        rintro (h | h)
        · exact hne2 h
        · exact h hr'
      show none = surviveNode (b :: ns) kn
      unfold surviveNode
      rw [if_neg hcond]
    · rw [if_neg hr]
      show surviveNode ns (kn.1, kn.2.filter (fun x => decide (x ≠ b)))
        = surviveNode (b :: ns) kn
      unfold surviveNode
      rw [show ((kn.1, kn.2.filter (fun x => decide (x ≠ b))) :
            String × List String).2
          = kn.2.filter (fun x => decide (x ≠ b)) from rfl,
        ← filter_ne_not_mem kn.2 b ns]
      by_cases hx : (kn.2.filter (fun x => decide (x ≠ b))).filter
          (fun h => decide (h ∉ ns)) ≠ []
      · rw [if_pos (Or.inr hx), if_pos (Or.inr hx)]
      · rw [if_neg (by rintro (h | h); exacts [hr h, hx h]),
          if_neg (by rintro (h | h); exacts [hne2 h, hx h])]
  · rw [if_neg hb]
    show surviveNode ns kn = surviveNode (b :: ns) kn
    unfold surviveNode
    have hagree : kn.2.filter (fun h => decide (h ∉ b :: ns))
        = kn.2.filter (fun h => decide (h ∉ ns)) := by
      refine filter_congr_mem _ _ _ (fun x hx => ?_)
      have hxb : ¬x = b := fun he => hb (he ▸ hx)
      simp [List.mem_cons, hxb]
    rw [hagree]

theorem filterMap_pair_eta {β : Type} (l : List (String × β)) :
    l.filterMap (fun kn => some (kn.1, kn.2)) = l := by
  induction l with
  | nil => rfl
  | cons x rest ih => simp [List.filterMap_cons, ih]

theorem surviveNode_nil (kn : String × List String) :
    surviveNode [] kn = some (kn.1, kn.2) := by
  unfold surviveNode
  have hf : kn.2.filter (fun h => decide (h ∉ ([] : List String))) = kn.2 := by
    simp
  rw [hf]
  by_cases hk : kn.2 = []
  · rw [if_pos (Or.inl hk)]
  · rw [if_pos (Or.inr hk)]

theorem cleanScanBlocks_nodes (blocks : List (String × List Nat))
    (nodes : List (String × List String)) :
    (cleanScanBlocks blocks nodes).2
      = nodes.filterMap (surviveNode (blockNames blocks)) := by
  induction blocks generalizing nodes with
  | nil =>
    show nodes = List.filterMap (surviveNode []) nodes
    rw [filterMap_congr_mem _ _ _ (fun kn _ => surviveNode_nil kn),
      filterMap_pair_eta]
  | cons b rest ih =>
    show (cleanScanBlocks rest (nodes.filterMap (cleanScanNode b.1))).2 = _
    rw [ih, List.filterMap_filterMap]
    exact filterMap_congr_mem _ _ _
      (fun kn _ => cleanScanNode_bind b.1 (blockNames rest) kn)

theorem referencedBy_scanNode (nodes : List (String × List String)) (b h : String)
    (hne : h ≠ b) :
    referencedBy (nodes.filterMap (cleanScanNode b)) h ↔ referencedBy nodes h := by
  constructor
  · rintro ⟨kn, hmem, hin⟩
    rw [List.mem_filterMap] at hmem
    obtain ⟨kn0, hmem0, heq⟩ := hmem
    refine ⟨kn0, hmem0, ?_⟩
    rw [cleanScanNode_eq] at heq
    by_cases hb : b ∈ kn0.2
    · rw [if_pos hb] at heq
      by_cases hr : kn0.2.filter (fun x => decide (x ≠ b)) = []
      · rw [if_pos hr] at heq
        cases heq
      · rw [if_neg hr] at heq
        cases Option.some.inj heq
        exact (List.mem_filter.1 hin).1
    · rw [if_neg hb] at heq
      cases Option.some.inj heq
      exact hin
  · rintro ⟨kn, hmem, hin⟩
    by_cases hb : b ∈ kn.2
    · have hf : h ∈ kn.2.filter (fun x => decide (x ≠ b)) :=
        List.mem_filter.2 ⟨hin, by simp [hne]⟩
      have hfne : kn.2.filter (fun x => decide (x ≠ b)) ≠ [] :=
        List.ne_nil_of_mem hf
      refine ⟨(kn.1, kn.2.filter (fun x => decide (x ≠ b))),
        List.mem_filterMap.2 ⟨kn, hmem, ?_⟩, hf⟩
      rw [cleanScanNode_eq, if_pos hb, if_neg hfne]
    · exact ⟨kn, List.mem_filterMap.2 ⟨kn, hmem, by rw [cleanScanNode_eq, if_neg hb]⟩, hin⟩

theorem cleanScanBlocks_kept (blocks : List (String × List Nat))
    (nodes : List (String × List String))
    (hnd : (blockNames blocks).Nodup) :
    (cleanScanBlocks blocks nodes).1
      = blocks.filter (fun b => decide (referencedBy nodes b.1)) := by
  induction blocks generalizing nodes with
  | nil => rfl
  | cons b rest ih =>
    rw [blockNames, List.map_cons, List.nodup_cons] at hnd
    have hbn : b.1 ∉ blockNames rest := fun hx => hnd.1 hx
    have hpres : ∀ r ∈ rest,
        (decide (referencedBy (nodes.filterMap (cleanScanNode b.1)) r.1))
          = (decide (referencedBy nodes r.1)) := by
      intro r hr
      have hne : r.1 ≠ b.1 := fun he => hbn (he ▸ List.mem_map_of_mem Prod.fst hr)
      rw [decide_eq_decide]
      exact referencedBy_scanNode nodes b.1 r.1 hne
    simp only [cleanScanBlocks, inUse_eq]
    rw [ih (nodes.filterMap (cleanScanNode b.1)) hnd.2,
      filter_congr_mem _ _ rest hpres, List.filter_cons]

theorem cleanOp_open (st : Store) (ho : st.isOpen = true) :
    cleanOp st
      = (if (cleanScanBlocks st.blocks st.nodes).2 = [] then .ok ()
         else .error (.corruptedNodes
           ((cleanScanBlocks st.blocks st.nodes).2.map Prod.fst)),
         { st with blocks := (cleanScanBlocks st.blocks st.nodes).1 }) := by
  unfold cleanOp
  rw [ho]
  rfl

/-- C4: after `Clean` on an open store (block file names distinct, as
directory entries are): the store's node files are untouched; every block
file referenced by no node is gone from the block directory; and whenever
some node references a hash with no block file, `Clean` returns a single
aggregated `corruptedNodes` error whose key list contains every such key
(not just the first). -/
theorem c4_clean_collects_garbage_and_corruption (st : Store)
    (ho : st.isOpen = true) (hnd : (blockNames st.blocks).Nodup) :
    (cleanOp st).2.nodes = st.nodes ∧
    (∀ b ∈ st.blocks, ¬referencedBy st.nodes b.1 → b ∉ (cleanOp st).2.blocks) ∧
    (∀ k hs, (k, hs) ∈ st.nodes → (∃ h ∈ hs, h ∉ blockNames st.blocks) →
      ∃ keys, (cleanOp st).1 = .error (.corruptedNodes keys) ∧ k ∈ keys ∧
        ∀ k' hs', (k', hs') ∈ st.nodes → (∃ h' ∈ hs', h' ∉ blockNames st.blocks) →
          k' ∈ keys) := by
  rw [cleanOp_open st ho]
  refine ⟨rfl, ?_, ?_⟩
  · intro b hmem href hkept
    rw [show ({ st with blocks := (cleanScanBlocks st.blocks st.nodes).1 } :
        Store).blocks = (cleanScanBlocks st.blocks st.nodes).1 from rfl,
      cleanScanBlocks_kept st.blocks st.nodes hnd] at hkept
    exact href (of_decide_eq_true (List.mem_filter.1 hkept).2)
  · intro k hs hmem hbad
    have hsurv : ∀ k0 hs0, (k0, hs0) ∈ st.nodes →
        (∃ h0 ∈ hs0, h0 ∉ blockNames st.blocks) →
        (k0, hs0.filter (fun h => decide (h ∉ blockNames st.blocks)))
          ∈ (cleanScanBlocks st.blocks st.nodes).2 := by
      intro k0 hs0 hmem0 hbad0
      obtain ⟨h0, hh0, hh0n⟩ := hbad0
      have hf : h0 ∈ hs0.filter (fun h => decide (h ∉ blockNames st.blocks)) :=
        List.mem_filter.2 ⟨hh0, decide_eq_true hh0n⟩
      rw [cleanScanBlocks_nodes]
      refine List.mem_filterMap.2 ⟨(k0, hs0), hmem0, ?_⟩
      unfold surviveNode
      rw [if_pos (Or.inr (List.ne_nil_of_mem hf))]
    have hk := hsurv k hs hmem hbad
    have hne : (cleanScanBlocks st.blocks st.nodes).2 ≠ [] :=
      List.ne_nil_of_mem hk
    refine ⟨(cleanScanBlocks st.blocks st.nodes).2.map Prod.fst,
      by rw [if_neg hne], List.mem_map_of_mem Prod.fst hk, ?_⟩
    intro k' hs' hmem' hbad'
    exact List.mem_map_of_mem Prod.fst (hsurv k' hs' hmem' hbad')

/-- Store used by the C4 and C8 witnesses: one healthy node, one corrupt
node referencing a missing hash, and one orphaned block. -/
def stW4 : Store :=
  ⟨[("good", ["h1"]), ("bad", ["h1", "hx"])],
   [("h1", [1]), ("orphan", [2])], [], true, false, 4⟩

theorem c4_witness :
    (stW4.isOpen = true ∧ (blockNames stW4.blocks).Nodup) ∧
    (cleanOp stW4).2.nodes = stW4.nodes ∧
    (("orphan", [2]) ∈ stW4.blocks ∧ ¬referencedBy stW4.nodes "orphan") ∧
    ("orphan", ([2] : List Nat)) ∉ (cleanOp stW4).2.blocks ∧
    (∃ keys, (cleanOp stW4).1 = .error (.corruptedNodes keys) ∧ "bad" ∈ keys ∧
      ∀ k' hs', (k', hs') ∈ stW4.nodes → (∃ h' ∈ hs', h' ∉ blockNames stW4.blocks) →
        k' ∈ keys) :=
  ⟨⟨rfl, by decide⟩,
   (c4_clean_collects_garbage_and_corruption stW4 rfl (by decide)).1,
   ⟨by decide, by decide⟩,
   (c4_clean_collects_garbage_and_corruption stW4 rfl (by decide)).2.1
     ("orphan", [2]) (by decide) (by decide),
   (c4_clean_collects_garbage_and_corruption stW4 rfl (by decide)).2.2
     "bad" ["h1", "hx"] (by decide) ⟨"hx", by decide, by decide⟩⟩

/-- C8: garbage collection is idempotent — with the node files untouched by
the first run, a second `Clean` keeps the block directory exactly as the
first run left it (no further deletions) and returns the same result, in
particular the same corruption report. -/
theorem c8_clean_idempotent (st : Store) (ho : st.isOpen = true)
    (hnd : (blockNames st.blocks).Nodup) :
    (cleanOp (cleanOp st).2).2.blocks = (cleanOp st).2.blocks ∧
    (cleanOp (cleanOp st).2).1 = (cleanOp st).1 := by
  rw [cleanOp_open st ho]
  set K := (cleanScanBlocks st.blocks st.nodes).1 with hK
  set st1 : Store := { st with blocks := K } with hst1
  have ho1 : st1.isOpen = true := ho
  have hKval : K = st.blocks.filter (fun b => decide (referencedBy st.nodes b.1)) := by
    rw [hK, cleanScanBlocks_kept st.blocks st.nodes hnd]
  have hnames : blockNames K
      = (blockNames st.blocks).filter (fun h => decide (referencedBy st.nodes h)) := by
    rw [hKval]
    exact blockNames_filter st.blocks (fun h => decide (referencedBy st.nodes h))
  have hnd1 : (blockNames st1.blocks).Nodup := by
    rw [show st1.blocks = K from rfl, hnames]
    exact hnd.filter _
  rw [cleanOp_open st1 ho1]
  have hb1 : st1.blocks = K := rfl
  have hn1 : st1.nodes = st.nodes := rfl
  have hkept2 : (cleanScanBlocks st1.blocks st1.nodes).1 = K := by
    rw [hb1, hn1, cleanScanBlocks_kept K st.nodes hnd1, hKval, filter_idem]
  have hrem2 : (cleanScanBlocks st1.blocks st1.nodes).2
      = (cleanScanBlocks st.blocks st.nodes).2 := by
    rw [hb1, hn1, cleanScanBlocks_nodes, cleanScanBlocks_nodes]
    refine filterMap_congr_mem _ _ _ (fun kn hkn => ?_)
    unfold surviveNode
    have hagree : kn.2.filter (fun h => decide (h ∉ blockNames K))
        = kn.2.filter (fun h => decide (h ∉ blockNames st.blocks)) := by
      refine filter_congr_mem _ _ _ (fun x hx => ?_)
      have hxr : referencedBy st.nodes x := ⟨kn, hkn, hx⟩
      have : x ∈ blockNames K ↔ x ∈ blockNames st.blocks := by
        rw [hnames, List.mem_filter]
        exact ⟨fun hy => hy.1, fun hy => ⟨hy, decide_eq_true hxr⟩⟩
      rw [decide_eq_decide]
      exact not_congr this
    rw [hagree]
  constructor
  · rw [show ((if (cleanScanBlocks st1.blocks st1.nodes).2 = [] then
        Except.ok () else Except.error
          (Err.corruptedNodes ((cleanScanBlocks st1.blocks st1.nodes).2.map Prod.fst)),
        { st1 with blocks := (cleanScanBlocks st1.blocks st1.nodes).1 }) :
          Except Err Unit × Store).2.blocks
        = (cleanScanBlocks st1.blocks st1.nodes).1 from rfl, hkept2]
  · rw [show ((if (cleanScanBlocks st1.blocks st1.nodes).2 = [] then
        Except.ok () else Except.error
          (Err.corruptedNodes ((cleanScanBlocks st1.blocks st1.nodes).2.map Prod.fst)),
        { st1 with blocks := (cleanScanBlocks st1.blocks st1.nodes).1 }) :
          Except Err Unit × Store).1
        = (if (cleanScanBlocks st1.blocks st1.nodes).2 = [] then
            Except.ok () else Except.error
              (Err.corruptedNodes ((cleanScanBlocks st1.blocks st1.nodes).2.map Prod.fst)))
          from rfl, hrem2]

theorem c8_witness :
    (stW4.isOpen = true ∧ (blockNames stW4.blocks).Nodup) ∧
    (cleanOp (cleanOp stW4).2).2.blocks = (cleanOp stW4).2.blocks ∧
    (cleanOp (cleanOp stW4).2).1 = (cleanOp stW4).1 :=
  ⟨⟨rfl, by decide⟩, c8_clean_idempotent stW4 rfl (by decide)⟩

/-- C10: a node that references the same block hash several times is fully
satisfied by the one corresponding block file: provided every hash it
lists (duplicates included) names some block file, `Clean` never lists the
node's key in the corruption report and never deletes any block file the
node references. -/
theorem c10_duplicate_refs_harmless (st : Store) (ho : st.isOpen = true)
    (hndb : (blockNames st.blocks).Nodup)
    (hndk : (st.nodes.map Prod.fst).Nodup)
    (k : String) (hs : List String) (hmem : (k, hs) ∈ st.nodes)
    (hne : hs ≠ []) (hall : ∀ h ∈ hs, h ∈ blockNames st.blocks) :
    (∀ keys, (cleanOp st).1 = .error (.corruptedNodes keys) → k ∉ keys) ∧
    (∀ b ∈ st.blocks, b.1 ∈ hs → b ∈ (cleanOp st).2.blocks) := by
  rw [cleanOp_open st ho]
  constructor
  · intro keys herr hkin
    have hkeys : keys = (cleanScanBlocks st.blocks st.nodes).2.map Prod.fst := by
      by_cases hremp : (cleanScanBlocks st.blocks st.nodes).2 = []
      · rw [if_pos hremp] at herr
        cases herr
      · rw [if_neg hremp] at herr
        exact (Err.corruptedNodes.injEq _ _ ▸ Except.error.inj herr).symm ▸ rfl
    rw [hkeys] at hkin
    obtain ⟨kn, hknmem, hknfst⟩ := List.mem_map.1 hkin
    rw [cleanScanBlocks_nodes] at hknmem
    obtain ⟨kn0, hkn0mem, hkn0eq⟩ := List.mem_filterMap.1 hknmem
    unfold surviveNode at hkn0eq
    by_cases hcond : kn0.2 = [] ∨
        kn0.2.filter (fun h => decide (h ∉ blockNames st.blocks)) ≠ []
    · rw [if_pos hcond] at hkn0eq
      cases Option.some.inj hkn0eq
      have hfst : kn0.1 = k := hknfst
      have hsame : kn0.2 = hs := by
        refine nodup_keys_eq st.nodes hndk k kn0.2 hs ?_ hmem
        rw [← hfst]
        exact hkn0mem
      rcases hcond with hc | hc
      · rw [hsame] at hc
        exact hne hc
      · refine hc ?_
        apply List.filter_eq_nil_iff.2
        intro a ha
        rw [hsame] at ha
        simp [hall a ha]
    · rw [if_neg hcond] at hkn0eq
      cases hkn0eq
  · intro b hbmem hbref
    rw [show ({ st with blocks := (cleanScanBlocks st.blocks st.nodes).1 } :
        Store).blocks = (cleanScanBlocks st.blocks st.nodes).1 from rfl,
      cleanScanBlocks_kept st.blocks st.nodes hndb]
    exact List.mem_filter.2 ⟨hbmem, decide_eq_true ⟨(k, hs), hmem, hbref⟩⟩

/-- Store used by the C10 witness: one node referencing the same hash
twice, one block file. -/
def stW10 : Store := ⟨[("k", ["h", "h"])], [("h", [5])], [], true, false, 4⟩

theorem lookupAL_append {β : Type} (l : List (String × β)) (e : String × β)
    (k : String) (d : β) (h : lookupAL l k = some d) :
    lookupAL (l ++ [e]) k = some d := by
  induction l with
  | nil => cases h
  | cons x rest ih =>
    obtain ⟨a, b⟩ := x
    by_cases ha : a = k
    · simp only [lookupAL, List.cons_append, if_pos ha] at h ⊢
      exact h
    · simp only [lookupAL, List.cons_append, if_neg ha] at h ⊢
      exact ih h

theorem storeChunks_preserves (H : List Nat → String) (B : Nat)
    (residue : List Nat) (cs : List (List Nat)) :
    ∀ (blocks : List (String × List Nat)) (k : String) (d : List Nat),
      lookupAL blocks k = some d →
      lookupAL (storeChunks H B residue blocks cs).2.1 k = some d := by
  induction cs with
  | nil => intro blocks k d h; exact h
  | cons c rest ih =>
    intro blocks k d h
    simp only [storeChunks]
    by_cases hseen : (lookupAL blocks (H (c ++ residue.take (B - c.length)))).isSome = true
    · rw [if_pos hseen]
      exact ih blocks k d h
    · rw [if_neg hseen]
      exact ih _ k d (lookupAL_append blocks _ k d h)

theorem storeChunks_fst_ne (H : List Nat → String) (B : Nat)
    (residue : List Nat) (blocks : List (String × List Nat))
    (cs : List (List Nat)) (h : cs ≠ []) :
    (storeChunks H B residue blocks cs).1 ≠ [] := by
  cases cs with
  | nil => exact absurd rfl h
  | cons c rest => simp [storeChunks]

theorem brLoop_ext (stA stB : Store) (bsize : Nat) :
    ∀ (rem : List String) (acc buf : List Nat) (prev : Nat),
      (∀ h ∈ rem, lookupAL stA.blocks h = lookupAL stB.blocks h) →
      brLoop stA bsize rem acc buf prev = brLoop stB bsize rem acc buf prev := by
  intro rem
  induction rem with
  | nil => intro acc buf prev _; rfl
  | cons h rest ih =>
    intro acc buf prev hagree
    have hl := hagree h (by simp)
    cases hlb : lookupAL stB.blocks h with
    | none => simp only [brLoop, hl, hlb]
    | some data =>
      simp only [brLoop, hl, hlb]
      split
      · rfl
      · exact ih _ _ _ (fun x hx => hagree x (List.mem_cons_of_mem h hx))

theorem brLoop_hashes_sub (st : Store) (bsize : Nat) :
    ∀ (rem : List String) (acc buf : List Nat) (prev : Nat),
      ∀ x ∈ (brLoop st bsize rem acc buf prev).2.1.hashes, x ∈ rem := by
  intro rem
  induction rem with
  | nil =>
    intro acc buf prev x hx
    simp only [brLoop] at hx
    cases hx
  | cons h rest ih =>
    intro acc buf prev x hx
    cases hlb : lookupAL st.blocks h with
    | none =>
      simp only [brLoop, hlb] at hx
      exact List.mem_cons_of_mem h hx
    | some data =>
      simp only [brLoop, hlb] at hx
      split at hx
      · exact List.mem_cons_of_mem h hx
      · exact List.mem_cons_of_mem h (ih _ _ _ x hx)

theorem blockReaderRead_ext (stA stB : Store) (r : BlockReader) (bsize : Nat)
    (hagree : ∀ h ∈ r.hashes, lookupAL stA.blocks h = lookupAL stB.blocks h) :
    blockReaderRead stA r bsize = blockReaderRead stB r bsize := by
  simp only [blockReaderRead]
  by_cases h1 : r.prev + 1 < r.buf.length
  · rw [if_pos h1, if_pos h1]
    by_cases h2 : bsize ≤ min bsize (r.buf.length - r.prev)
    · rw [if_pos h2, if_pos h2]
    · rw [if_neg h2, if_neg h2]
      exact brLoop_ext stA stB bsize r.hashes _ _ _ hagree
  · rw [if_neg h1, if_neg h1]
    exact brLoop_ext stA stB bsize r.hashes _ _ _ hagree

theorem blockReaderRead_hashes_sub (st : Store) (r : BlockReader) (bsize : Nat) :
    ∀ x ∈ (blockReaderRead st r bsize).2.1.hashes, x ∈ r.hashes := by
  intro x hx
  simp only [blockReaderRead] at hx
  by_cases h1 : r.prev + 1 < r.buf.length
  · rw [if_pos h1] at hx
    by_cases h2 : bsize ≤ min bsize (r.buf.length - r.prev)
    · rw [if_pos h2] at hx
      exact hx
    · rw [if_neg h2] at hx
      exact brLoop_hashes_sub st bsize r.hashes _ _ _ x hx
  · rw [if_neg h1] at hx
    exact brLoop_hashes_sub st bsize r.hashes _ _ _ x hx

theorem readPump_ext (stA stB : Store) :
    ∀ (pulls : List Nat) (r : BlockReader),
      (∀ h ∈ r.hashes, lookupAL stA.blocks h = lookupAL stB.blocks h) →
      readPump stA r pulls = readPump stB r pulls := by
  intro pulls
  induction pulls with
  | nil => intro r _; rfl
  | cons sz rest ih =>
    intro r hagree
    simp only [readPump]
    rw [blockReaderRead_ext stA stB r sz hagree]
    have hsub := blockReaderRead_hashes_sub stB r sz
    cases hres : (blockReaderRead stB r sz).2.2 with
    | more =>
      rw [ih (blockReaderRead stB r sz).2.1
        (fun x hx => hagree x (hsub x hx))]
    | eof => rfl
    | fail e => rfl

/-- C3: with overwrite disabled, a second write to a key whose node file
exists returns `AlreadyExists` (either from the pre-check or from the
`O_EXCL` node-file creation), leaves the node directory untouched, never
modifies an existing block file, and the stored value stays readable
unchanged: any pull sequence reads back exactly what it read before the
failed write.  Hypotheses: valid key, open store, overwrite off, a node
for the key with all its referenced blocks present, and non-empty input. -/
theorem c3_no_overwrite_second_write_fails (H : List Nat → String) (st : Store)
    (key : String) (hs : List String) (v residue : List Nat)
    (hk : validKey key = true) (ho : st.isOpen = true)
    (hov : st.overwrite = false) (hnode : lookupAL st.nodes key = some hs)
    (hv : v ≠ []) (hwf : ∀ h ∈ hs, (lookupAL st.blocks h).isSome = true) :
    (writeStream H st key v residue).1 = .error .alreadyExists ∧
    (writeStream H st key v residue).2.1.nodes = st.nodes ∧
    (∀ h d, lookupAL st.blocks h = some d →
      lookupAL (writeStream H st key v residue).2.1.blocks h = some d) ∧
    (∀ pulls, readKey (writeStream H st key v residue).2.1 key pulls
      = readKey st key pulls) := by
  by_cases hcwd : key ∈ st.cwd
  · have hw : writeStream H st key v residue
        = (.error .alreadyExists, st, [.statPath key]) := by
      simp [writeStream, hk, ho, hov, hcwd]
    rw [hw]
    exact ⟨rfl, rfl, fun h d hd => hd, fun pulls => rfl⟩
  · have hcs : chunks st.blockSize v ≠ [] := chunks_ne_nil st.blockSize v hv
    have hr1 : (storeChunks H st.blockSize residue st.blocks
        (chunks st.blockSize v)).1 ≠ [] :=
      storeChunks_fst_ne H st.blockSize residue st.blocks _ hcs
    have h1 : (writeStream H st key v residue).1 = .error .alreadyExists := by
      simp [writeStream, hk, ho, hov, hcwd, hr1, hnode]
    have h2 : (writeStream H st key v residue).2.1
        = { st with blocks := (storeChunks H st.blockSize residue st.blocks
            (chunks st.blockSize v)).2.1 } := by
      simp [writeStream, hk, ho, hov, hcwd, hr1, hnode]
    have hpres : ∀ h d, lookupAL st.blocks h = some d →
        lookupAL (writeStream H st key v residue).2.1.blocks h = some d := by
      intro h d hd
      rw [h2]
      exact storeChunks_preserves H st.blockSize residue _ st.blocks h d hd
    refine ⟨h1, by rw [h2], hpres, ?_⟩
    intro pulls
    have hagree : ∀ h ∈ hs,
        lookupAL (writeStream H st key v residue).2.1.blocks h
          = lookupAL st.blocks h := by
      intro h hh
      have hsome := hwf h hh
      cases hl : lookupAL st.blocks h with
      | none => rw [hl] at hsome; cases hsome
      | some d => exact hpres h d hl
    have hrs' : (readStream (writeStream H st key v residue).2.1 key).1
        = .ok ⟨hs, [], 0⟩ := by
      rw [h2]
      simp [readStream, hk, ho, hnode]
    have hrs : (readStream st key).1 = .ok ⟨hs, [], 0⟩ := by
      simp [readStream, hk, ho, hnode]
    unfold readKey
    rw [hrs', hrs]
    exact congrArg Except.ok (readPump_ext _ _ pulls ⟨hs, [], 0⟩ hagree)

/-- Store used by the C3 witness: key `"k"` already stored with one block. -/
def stW3 : Store := ⟨[("k", ["x"])], [("x", [7, 8])], [], true, false, 4⟩

theorem c3_witness :
    (validKey "k" = true ∧ stW3.isOpen = true ∧ stW3.overwrite = false ∧
      lookupAL stW3.nodes "k" = some ["x"] ∧ ([1] : List Nat) ≠ [] ∧
      ∀ h ∈ (["x"] : List String), (lookupAL stW3.blocks h).isSome = true) ∧
    (writeStream Hc stW3 "k" [1] []).1 = .error .alreadyExists ∧
    (writeStream Hc stW3 "k" [1] []).2.1.nodes = stW3.nodes ∧
    readKey (writeStream Hc stW3 "k" [1] []).2.1 "k" [16]
      = readKey stW3 "k" [16] :=
  ⟨⟨rfl, rfl, rfl, rfl, by decide, by decide⟩,
   (c3_no_overwrite_second_write_fails Hc stW3 "k" ["x"] [1] [] rfl rfl rfl rfl
     (by decide) (by decide)).1,
   (c3_no_overwrite_second_write_fails Hc stW3 "k" ["x"] [1] [] rfl rfl rfl rfl
     (by decide) (by decide)).2.1,
   (c3_no_overwrite_second_write_fails Hc stW3 "k" ["x"] [1] [] rfl rfl rfl rfl
     (by decide) (by decide)).2.2.2 [16]⟩

theorem c10_witness :
    (stW10.isOpen = true ∧ (blockNames stW10.blocks).Nodup ∧
      (stW10.nodes.map Prod.fst).Nodup ∧ ("k", ["h", "h"]) ∈ stW10.nodes ∧
      (["h", "h"] : List String) ≠ [] ∧
      ∀ h ∈ (["h", "h"] : List String), h ∈ blockNames stW10.blocks) ∧
    (∀ keys, (cleanOp stW10).1 = .error (.corruptedNodes keys) → "k" ∉ keys) ∧
    ("h", ([5] : List Nat)) ∈ (cleanOp stW10).2.blocks :=
  ⟨⟨rfl, by decide, by decide, by decide, by decide, by decide⟩,
   (c10_duplicate_refs_harmless stW10 rfl (by decide) (by decide) "k" ["h", "h"]
     (by decide) (by decide) (by decide)).1,
   (c10_duplicate_refs_harmless stW10 rfl (by decide) (by decide) "k" ["h", "h"]
     (by decide) (by decide) (by decide)).2 ("h", [5]) (by decide) (by decide)⟩

end BlockStore
